import Mathlib

/-!
Verification of the `arret` workspace-bucket cleanup tool.

Shallow embedding of the core planning and deletion logic:
* `src/arret/plan.py` (`make_plan` and its per-blob classification flags),
* `src/arret/clean.py` (`apply_delete_logic`, the batching in `do_clean`,
  and `delete_batch`),
* `src/arret/utils.py` (`maybe_retry`, `split_workspace_names`),
* `src/arret/terra.py` (`call_firecloud_api`'s retry configuration).

Machine integers are modelled as `Int`/`Nat` (the Python code uses arbitrary
precision ints and int64 columns well below overflow), timestamps as integer
day ordinals (the age comparison in `make_plan` compares calendar dates), and
remote calls as explicit outcome functions.
-/

namespace Arret

/-! ## Inventory records (`plan.py: read_inventory`)

One row of the inventory data frame entering `make_plan`: blob `name`, `size`
(int64), `updated` (timestamp, modelled at day granularity, which is the
granularity of the `.dt.date` comparison in `make_plan`), and the derived
`gs_url` (`"gs://" + bucket + "/" + name`). -/

structure Blob where
  name : String
  size : Int
  updated : Int
  gs_url : String
deriving Repr, DecidableEq

/-- `plan.py` line 109-111: a name is exempted from the age-based rule when it
ends with `".log"` or `"/script"` (the spec calls this `force_keep`; Python
`str.endswith`, computed on the character list). -/
def forceKeepName (name : String) : Bool :=
  List.isSuffixOf ".log".data name.data || List.isSuffixOf "/script".data name.data

/-- Pattern of `plan.py` line 115-117: `re.search` of `/pipelines-logs/[^/]`
matching at the head of `text`: the literal pattern is a prefix and the next
character exists and is not `'/'`. -/
def pipeMatchHere : List Char → List Char → Bool
  | [], [] => false
  | [], d :: _ => d != '/'
  | _ :: _, [] => false
  | p :: ps, d :: ds => p == d && pipeMatchHere ps ds

/-- `re.search(r"/pipelines-logs/[^/]", s)`: the pattern matches at some
position of the string. -/
def hasPipeSeg : List Char → Bool
  | [] => false
  | c :: rest => pipeMatchHere "/pipelines-logs/".toList (c :: rest) || hasPipeSeg rest

/-- `plan.py` line 115-117: the blob name contains the `/pipelines-logs/`
folder pattern. -/
def pipelineLogsName (name : String) : Bool :=
  hasPipeSeg name.toList

/-- Python `x.split("/")`. -/
def splitSlash : List Char → List (List Char)
  | [] => [[]]
  | c :: cs =>
    if c = '/' then [] :: splitSlash cs
    else
      match splitSlash cs with
      | [] => [[c]]
      | p :: ps => (c :: p) :: ps

/-- One inventory row with the per-blob classification flags computed by
`make_plan` lines 96-117, plus the pre-split name components (line 121). -/
structure FlaggedBlob where
  name : String
  parts : List String
  size : Int
  updated : Int
  gs_url : String
  deletable : Bool
  deletable_age : Bool
  deletable_empty : Bool
  deletable_large : Bool
  deletable_not_kept : Bool
  deletable_pipeline_logs : Bool
deriving Repr, DecidableEq

/-- `make_plan` lines 96-117: per-blob flags.  `today` is the date of
`pd.Timestamp.now()`; the old-age cutoff is `today - daysOld` (subtracting
whole days commutes with taking the date). -/
def mkFlags (gsUrls : List String) (daysOld sizeLarge today : Int) (b : Blob) :
    FlaggedBlob :=
  let d := !(decide (b.gs_url ∈ gsUrls))
  { name := b.name
    parts := (splitSlash b.name.data).map String.mk
    size := b.size
    updated := b.updated
    gs_url := b.gs_url
    deletable := d
    deletable_age := d && decide (b.updated < today - daysOld)
    deletable_empty := d && decide (b.size = 0)
    deletable_large := d && decide (b.size > sizeLarge)
    deletable_not_kept := d && !(forceKeepName b.name)
    deletable_pipeline_logs := d && pipelineLogsName b.name }

/-- One row of the `stats` frame built per depth iteration of `make_plan`
(lines 143-196): aggregate flags over one path group, its stats, the
`to_delete`/`to_keep` decisions, and the blob names collected for deletable
paths.  (The code drops the `to_delete`/`to_keep` columns at line 206 after
filtering; they are kept here as record fields.) -/
structure PlanOp where
  deletable : Bool
  deletable_age : Bool
  deletable_empty : Bool
  deletable_large : Bool
  deletable_not_kept : Bool
  deletable_pipeline_logs : Bool
  size : Int
  updated : Int
  n_objs : Nat
  depth : Nat
  to_delete : Bool
  to_keep : Bool
  blobs : List String
deriving Repr, DecidableEq

/-- Group key at depth `cix`: the first `cix + 1` name components
(`make_plan` lines 129-139: the cumulative `name0 … nameN` index).  A blob
whose name has fewer components gets a `None`/NaN component, and pandas
`groupby` drops NaN keys: modelled by `none`. -/
def groupKey (cix : Nat) (b : FlaggedBlob) : Option (List String) :=
  if cix + 1 ≤ b.parts.length then some (b.parts.take (cix + 1)) else none

/-- First-occurrence deduplication of group keys.  (pandas emits groups in
sorted key order; none of the theorems below depend on group order.) -/
def uniqKeys : List (List String) → List (List String) → List (List String)
  | [], _ => []
  | k :: ks, seen => if k ∈ seen then uniqKeys ks seen else k :: uniqKeys ks (k :: seen)

/-- `inv.groupby(inv.index.names)` at depth `cix`: the list of groups, one per
distinct key; NaN-keyed rows belong to no group. -/
def groupsAt (cix : Nat) (l : List FlaggedBlob) : List (List FlaggedBlob) :=
  (uniqKeys (l.filterMap (groupKey cix)) []).map fun k =>
    l.filter fun b => decide (groupKey cix b = some k)

/-- `last_updated = inv_g["updated"].max()` over a group. -/
def maxUpdated : List FlaggedBlob → Int
  | [] => 0
  | b :: bs => bs.foldl (fun m x => max m x.updated) b.updated

/-- `make_plan` lines 143-196 for one group: the `all`-aggregated flags, the
group stats, and the `to_delete`/`to_keep` decision
(`to_delete = deletable_empty | deletable_large | deletable_pipeline_logs |
(deletable_age & deletable_not_kept)`, line 174-179). -/
def mkStats (cix : Nat) (g : List FlaggedBlob) : PlanOp :=
  let td := g.all (·.deletable_empty) || g.all (·.deletable_large)
      || g.all (·.deletable_pipeline_logs)
      || (g.all (·.deletable_age) && g.all (·.deletable_not_kept))
  { deletable := g.all (·.deletable)
    deletable_age := g.all (·.deletable_age)
    deletable_empty := g.all (·.deletable_empty)
    deletable_large := g.all (·.deletable_large)
    deletable_not_kept := g.all (·.deletable_not_kept)
    deletable_pipeline_logs := g.all (·.deletable_pipeline_logs)
    size := (g.map (·.size)).sum
    updated := maxUpdated g
    n_objs := g.length
    depth := cix
    to_delete := td
    to_keep := g.length == 1 && !td
    blobs := if td then g.map (·.name) else [] }

/-- The depth loop of `make_plan` (lines 129-201): at each depth the groups
are scored; groups just marked `to_delete` or `to_keep` are removed from the
inventory (line 199: `inv.loc[...]` keeps exactly the rows of the surviving
groups, grouped together), and the remaining rows proceed to the next depth.
`fuel` is the number of remaining iterations (`max_name_depth + 1` at the
start). -/
def planLoop : List FlaggedBlob → Nat → Nat → List PlanOp
  | _, _, 0 => []
  | remaining, cix, fuel + 1 =>
    let groups := groupsAt cix remaining
    let stats := groups.map (mkStats cix)
    let keptGroups := groups.filter fun g =>
      !((mkStats cix g).to_delete || (mkStats cix g).to_keep)
    stats ++ planLoop keptGroups.flatten (cix + 1) fuel

/-- `max_name_depth = inv["name"].str.count("/").max()` (line 120). -/
def maxNameDepth (inv : List Blob) : Nat :=
  inv.foldl (fun m b => max m (b.name.toList.count '/')) 0

/-- Insert into a size-descending list, before the first element that is not
larger. -/
def insertBySize (op : PlanOp) : List PlanOp → List PlanOp
  | [] => [op]
  | o :: os => if decide (o.size ≤ op.size) then op :: o :: os else o :: insertBySize op os

/-- `delete_ops.sort_values("size", ascending=False)` (line 205), modelled as
an insertion sort (the claims only depend on the result being a
size-descending rearrangement; the tie order of pandas' quicksort is not
relied upon). -/
def sortBySizeDesc (ops : List PlanOp) : List PlanOp :=
  ops.foldr insertBySize []

/-- `make_plan` (plan.py lines 90-206): flag every blob, run the depth loop,
and return the operations marked `to_delete`, sorted by size descending. -/
def makePlan (inv : List Blob) (gsUrls : List String)
    (daysOld sizeLarge today : Int) : List PlanOp :=
  let flagged := inv.map (mkFlags gsUrls daysOld sizeLarge today)
  let ops := planLoop flagged 0 (maxNameDepth inv + 1)
  sortBySizeDesc (ops.filter (·.to_delete))

/-- Verification-side predicate: the per-blob deletion rule of `make_plan`
line 174-179 specialised to one blob — empty, or large, or under
`/pipelines-logs/`, or (old and not force-kept). -/
def blobRuleFires (fb : FlaggedBlob) : Bool :=
  fb.deletable_empty || fb.deletable_large || fb.deletable_pipeline_logs ||
    (fb.deletable_age && fb.deletable_not_kept)

/-- Verification-side predicate: the group-level `to_delete` rule of
`make_plan` line 174-179 over a plan operation's aggregated flags. -/
def opRuleFires (op : PlanOp) : Bool :=
  op.deletable_empty || op.deletable_large || op.deletable_pipeline_logs ||
    (op.deletable_age && op.deletable_not_kept)

/-- Verification-side predicate on a raw inventory blob: some deletion rule
applies to it (empty, large, pipeline-logs, or old-and-not-force-kept). -/
def blobDeletionReason (daysOld sizeLarge today : Int) (b : Blob) : Bool :=
  decide (b.size = 0) || decide (b.size > sizeLarge) || pipelineLogsName b.name ||
    (decide (b.updated < today - daysOld) && !forceKeepName b.name)

/-- The flag layout `mkFlags` guarantees: each specific flag subsumes
`deletable`. -/
def coherentFlags (fb : FlaggedBlob) : Prop :=
  (fb.deletable_empty = true → fb.deletable = true) ∧
  (fb.deletable_large = true → fb.deletable = true) ∧
  (fb.deletable_pipeline_logs = true → fb.deletable = true) ∧
  (fb.deletable_age = true → fb.deletable = true)

/-! ## Deletion executor (`clean.py`)

The persisted plan is a DuckDB table `blobs` with columns
`url, name, size, …, in_data_table, to_delete`; a row is modelled by
`PlanRow`.  The `to_delete_sql` expression passed to `apply_delete_logic` is
an arbitrary boolean SQL expression over a row's columns, modelled as an
arbitrary predicate. -/

structure PlanRow where
  url : String
  name : String
  size : Int
  in_data_table : Bool
  to_delete : Bool
deriving Repr, DecidableEq

/-- `clean.py: apply_delete_logic` (lines 145-215, SQL statements at
195-215): set `in_data_table = url IN gs_urls`, then
`to_delete = (to_delete_sql) AND NOT in_data_table`, then assert that no row
has both `in_data_table` and `to_delete` (a failed Python `assert` is
modelled as `Except.error`). -/
def applyDeleteLogic (rows : List PlanRow) (gsUrls : List String)
    (toDeleteSql : PlanRow → Bool) : Except Unit (List PlanRow) :=
  let rows1 := rows.map fun r => { r with in_data_table := decide (r.url ∈ gsUrls) }
  let rows2 := rows1.map fun r => { r with to_delete := toDeleteSql r && !r.in_data_table }
  if rows2.any fun r => r.in_data_table && r.to_delete then .error () else .ok rows2

/-- `do_clean` lines 60-61: the names of the rows whose `to_delete` flag is
set. -/
def blobsToDelete (rows : List PlanRow) : List String :=
  (rows.filter (·.to_delete)).map (·.name)

/-- `do_clean` line 77: the GCS batch-request limit. -/
def maxBatchSize : Nat := 1000

/-- `do_clean` line 78: `n_batches = 1 + n_blobs // max_batch_size`. -/
def nBatches (n : Nat) : Nat := 1 + n / maxBatchSize

/-- `do_clean` line 79: `batch_size = ceil(n_blobs / n_batches)`.  (Python
computes the ceiling of a float division; for any physically possible blob
count the float quotient is exact enough that this equals the integer
ceiling, modelled here exactly.) -/
def batchSize (n : Nat) : Nat := (n + nBatches n - 1) / nBatches n

/-- `do_clean` lines 87-90: batch `i` is the slice
`blobs_to_delete[i*batch_size : i*batch_size + batch_size]`. -/
def mkBatches (blobs : List String) : List (List String) :=
  (List.range (nBatches blobs.length)).map fun i =>
    (blobs.drop (i * batchSize blobs.length)).take (batchSize blobs.length)

/-- The outcome of `bucket.delete_blob` for one blob name: `.ok` or a raised
exception carrying a message. -/
def tryDeleteBlob (outcome : String → Except String Unit) (blob : String) :
    Option String :=
  match outcome blob with
  | .ok _ => none
  | .error e => some e

/-- `clean.py: delete_batch` (lines 218-242): iterate over the batch and
delete each blob; a per-blob exception is caught by the
`except Exception` handler (modelled by `tryDeleteBlob` turning it into a
logged `Option`), so the loop itself can only finish normally.  The outer
`Except` is the channel through which an uncaught exception would escape
`delete_batch`. -/
def deleteBatchRun (outcome : String → Except String Unit) :
    List String → Except String (List (String × Option String))
  | [] => .ok []
  | b :: rest =>
    match deleteBatchRun outcome rest with
    | .ok tl => .ok ((b, tryDeleteBlob outcome b) :: tl)
    | .error e => .error e

/-! ## Retry logic (`utils.py: maybe_retry`, `terra.py: call_firecloud_api`) -/

/-- Exceptions raised by a Firecloud request: the two transient connection
errors listed in `terra.py` line 128 (`requests.ConnectionError`,
`requests.ConnectTimeout`) and anything else. -/
inductive FcError where
  | connectionError : FcError
  | connectTimeout : FcError
  | otherError : Nat → FcError
deriving Repr, DecidableEq

/-- `isinstance(e, retryable_exceptions)` for the tuple passed by
`call_firecloud_api`. -/
def retryableErr : FcError → Bool
  | .connectionError => true
  | .connectTimeout => true
  | .otherError _ => false

/-- Whether one invocation outcome is a retryable failure. -/
def isRetryableFailure : Except FcError α → Bool
  | .error e => retryableErr e
  | .ok _ => false

/-- The observable result of a `maybe_retry` run: the value returned or the
exception propagated, the total number of invocations of `func`, and the
arguments passed to `waiter` (one per sleep, in order; `utils.py` line 78
passes `n_retries + 1`, i.e. `k` before the `k`-th retry). -/
structure RetryRun (R : Type) where
  result : Except FcError R
  calls : Nat
  waitArgs : List Nat
deriving Repr

/-- The `while True` loop of `maybe_retry` (utils.py lines 68-81).
`behavior i` is the outcome of the `i`-th invocation (0-based); `nRetries`
mirrors the Python counter and `fuel = max_retries - n_retries`, so
`fuel = 0` exactly when `n_retries == max_retries` (line 75). -/
def maybeRetryGo (behavior : Nat → Except FcError R) (nRetries : Nat) :
    Nat → RetryRun R
  | 0 =>
    match behavior nRetries with
    | .ok r => ⟨.ok r, nRetries + 1, []⟩
    | .error e => ⟨.error e, nRetries + 1, []⟩
  | fuel + 1 =>
    match behavior nRetries with
    | .ok r => ⟨.ok r, nRetries + 1, []⟩
    | .error e =>
      if retryableErr e then
        let rest := maybeRetryGo behavior (nRetries + 1) fuel
        ⟨rest.result, rest.calls, (nRetries + 1) :: rest.waitArgs⟩
      else ⟨.error e, nRetries + 1, []⟩

/-- `utils.py: maybe_retry` (lines 44-81): with `max_retries = 0` the
function is called once and any exception propagates (line 65-66); otherwise
the retry loop runs.  A non-retryable exception escapes the `except` clause
in the loop as well, which `maybeRetryGo` models. -/
def maybeRetry (behavior : Nat → Except FcError R) (maxRetries : Nat) :
    RetryRun R :=
  if maxRetries = 0 then
    match behavior 0 with
    | .ok r => ⟨.ok r, 1, []⟩
    | .error e => ⟨.error e, 1, []⟩
  else maybeRetryGo behavior 0 maxRetries

/-- `terra.py: call_firecloud_api` default `max_retries` (line 114). -/
def callFirecloudApiMaxRetries : Nat := 3

/-- The retry behaviour of `call_firecloud_api` (terra.py lines 126-132):
`maybe_retry` with the connection-error tuple and the default
`max_retries = 3`. -/
def callFirecloudApiRun (behavior : Nat → Except FcError R) : RetryRun R :=
  maybeRetry behavior callFirecloudApiMaxRetries

/-! ## `utils.py: split_workspace_names`

Strings are modelled as `List Char`; `splitSlash` models Python
`str.split("/")`. -/

/-- `utils.py: split_workspace_names` (lines 166-179): unpack each
`"namespace/name"` identifier via `x1, x2 = x.split("/")`; a split that does
not produce exactly two parts raises `ValueError` (modelled as
`Except.error`), evaluated left to right. -/
def splitWorkspaceNames : List (List Char) → Except Unit (List (List Char × List Char))
  | [] => .ok []
  | x :: rest =>
    match splitSlash x with
    | [a, b] =>
      match splitWorkspaceNames rest with
      | .ok tl => .ok ((a, b) :: tl)
      | .error e => .error e
    | _ => .error ()

/-! ## Helper lemmas: batching arithmetic -/

theorem flatten_slice_map (l : List α) (bs : Nat) :
    ∀ k, ((List.range k).map fun i => (l.drop (i * bs)).take bs).flatten
      = l.take (k * bs) := by
  intro k
  induction k with
  | zero => simp
  | succ k ih =>
    rw [List.range_succ, List.map_append, List.flatten_append]
    simp only [List.map_cons, List.map_nil, List.flatten_cons, List.flatten_nil,
      List.append_nil]
    rw [ih, List.take_drop, Nat.succ_mul]
    have h1 : l.take (k * bs) = (l.take (k * bs + bs)).take (k * bs) := by
      rw [List.take_take, Nat.min_def, if_pos (Nat.le_add_right _ _)]
    rw [h1, List.take_append_drop]

theorem nBatches_pos (n : Nat) : 0 < nBatches n := by
  simp [nBatches]

theorem le_nBatches_mul_batchSize (n : Nat) : n ≤ nBatches n * batchSize n := by
  have hpos := nBatches_pos n
  have hdm := Nat.div_add_mod (n + nBatches n - 1) (nBatches n)
  have hm : (n + nBatches n - 1) % nBatches n < nBatches n := Nat.mod_lt _ hpos
  have hbs : batchSize n = (n + nBatches n - 1) / nBatches n := rfl
  rw [hbs]
  omega

theorem batchSize_le_1000 (n : Nat) : batchSize n ≤ 1000 := by
  have hdm := Nat.div_add_mod n 1000
  have hm : n % 1000 < 1000 := Nat.mod_lt _ (by omega)
  have hlt : batchSize n < 1001 := by
    have hpos : 0 < nBatches n := nBatches_pos n
    unfold batchSize
    rw [Nat.div_lt_iff_lt_mul hpos]
    unfold nBatches maxBatchSize
    omega
  omega

theorem mkBatches_flatten (blobs : List String) :
    (mkBatches blobs).flatten = blobs := by
  unfold mkBatches
  rw [flatten_slice_map]
  exact List.take_of_length_le (le_nBatches_mul_batchSize blobs.length)

/-- C6: for every non-empty selection of blob names, `do_clean`'s batching
produces `1 + n / 1000` contiguous slices, every batch holds at most 1000
names (the GCS per-batch limit), and the concatenation of the batches is
exactly the selection — so every selected blob lands in exactly one batch
and no unselected name appears. -/
theorem clean_batching_spec (blobs : List String) (h : blobs ≠ []) :
    (mkBatches blobs).length = 1 + blobs.length / 1000
    ∧ (∀ b ∈ mkBatches blobs, b.length ≤ 1000)
    ∧ (mkBatches blobs).flatten = blobs := by
  refine ⟨?_, ?_, mkBatches_flatten blobs⟩
  · simp [mkBatches, nBatches, maxBatchSize]
  · intro b hb
    simp only [mkBatches, List.mem_map, List.mem_range] at hb
    obtain ⟨i, -, rfl⟩ := hb
    calc ((blobs.drop (i * batchSize blobs.length)).take (batchSize blobs.length)).length
        ≤ batchSize blobs.length := by
          rw [List.length_take]; exact Nat.min_le_left _ _
      _ ≤ 1000 := batchSize_le_1000 _

/-- Witness for C6 at the one-element selection `["a"]`. -/
theorem clean_batching_spec_witness :
    (mkBatches ["a"]).length = 1 + (["a"] : List String).length / 1000
    ∧ (mkBatches ["a"]).flatten = ["a"] :=
  ⟨(clean_batching_spec ["a"] (by decide)).1, (clean_batching_spec ["a"] (by decide)).2.2⟩

/-- C1: every name handed to `delete_batch` by `do_clean` comes from a plan
row whose `to_delete` flag is true and whose `url` is absent from the
reference set recomputed by `apply_delete_logic` immediately before deleting:
the deleted names and the fresh reference set cannot intersect. -/
theorem clean_deletes_only_unreferenced (rows : List PlanRow) (gsUrls : List String)
    (sql : PlanRow → Bool) (out : List PlanRow)
    (h : applyDeleteLogic rows gsUrls sql = .ok out) :
    ∀ nm ∈ (mkBatches (blobsToDelete out)).flatten,
      out.any (fun r => r.name == nm && r.to_delete && !(decide (r.url ∈ gsUrls))) = true := by
  intro nm hnm
  rw [mkBatches_flatten] at hnm
  simp only [blobsToDelete, List.mem_map, List.mem_filter] at hnm
  obtain ⟨r, ⟨hrmem, hrtd⟩, rfl⟩ := hnm
  have hurl : decide (r.url ∈ gsUrls) = false := by
    simp only [applyDeleteLogic] at h
    split at h
    · exact absurd h (by simp)
    · cases h
      simp only [List.map_map, List.mem_map, Function.comp] at hrmem
      obtain ⟨r0, -, rfl⟩ := hrmem
      simp only at hrtd ⊢
      cases hdec : decide (r0.url ∈ gsUrls) with
      | false => rfl
      | true => rw [hdec] at hrtd; simp at hrtd
  simp only [List.any_eq_true]
  exact ⟨r, hrmem, by simp [hrtd, hurl]⟩

/-- Witness for C1: a one-row plan whose single unreferenced row is selected
and batched. -/
theorem clean_deletes_only_unreferenced_witness :
    ([⟨"gs://b/x", "x", 5, false, true⟩] : List PlanRow).any
      (fun r => r.name == "x" && r.to_delete && !(decide (r.url ∈ ([] : List String)))) = true :=
  clean_deletes_only_unreferenced [⟨"gs://b/x", "x", 5, false, true⟩] []
    (fun _ => true) [⟨"gs://b/x", "x", 5, false, true⟩] rfl "x" (by decide)

/-- C9: per-object delete failures are isolated.  For every per-blob outcome
function and every batch, `delete_batch` finishes normally (never `.error`,
because each `bucket.delete_blob` call sits inside a `try`/`except Exception`
that logs and continues), and it attempts the deletion of every blob of the
batch exactly once, in order, regardless of how many of the individual
deletions raise. -/
theorem delete_batch_isolation (outcome : String → Except String Unit)
    (batch : List String) :
    deleteBatchRun outcome batch = .ok (batch.map fun b => (b, tryDeleteBlob outcome b)) := by
  induction batch with
  | nil => rfl
  | cons b rest ih => simp [deleteBatchRun, ih]

/-- C5 (amended): `apply_delete_logic` implements the soft-filter variant.
It recomputes `to_delete` as `to_delete_sql AND NOT in_data_table`, so a
still-referenced blob is silently excluded from the deletion set; the
subsequent assertion that no row has both `in_data_table` and `to_delete`
can therefore never fire, and `apply_delete_logic` never raises. -/
theorem apply_delete_logic_soft_filter (rows : List PlanRow) (gsUrls : List String)
    (sql : PlanRow → Bool) :
    ∃ out, applyDeleteLogic rows gsUrls sql = .ok out
      ∧ out.all (fun r => !(r.in_data_table && r.to_delete)) = true := by
  simp only [applyDeleteLogic]
  have hall : ∀ r ∈ (rows.map fun r =>
        ({ r with in_data_table := decide (r.url ∈ gsUrls) } : PlanRow)).map
          (fun r => { r with to_delete := sql r && !r.in_data_table }),
      (!(r.in_data_table && r.to_delete)) = true := by
    intro r hr
    simp only [List.map_map, List.mem_map, Function.comp] at hr
    obtain ⟨r0, -, rfl⟩ := hr
    simp only
    cases sql { r0 with in_data_table := decide (r0.url ∈ gsUrls) } <;>
      cases hdec : decide (r0.url ∈ gsUrls) <;> simp
  have hany : ((rows.map fun r =>
        ({ r with in_data_table := decide (r.url ∈ gsUrls) } : PlanRow)).map
          (fun r => { r with to_delete := sql r && !r.in_data_table })).any
        (fun r => r.in_data_table && r.to_delete) = false := by
    rw [← Bool.not_eq_true, List.any_eq_true]
    rintro ⟨r, hr, hrb⟩
    have := hall r hr
    rw [hrb] at this
    simp at this
  rw [if_neg (by rw [hany]; simp)]
  exact ⟨_, rfl, List.all_eq_true.mpr hall⟩

/-- C5 counterexample: a plan row that the SQL rule selects and whose url is
in the freshly recomputed reference set.  The claim says this overlap is a
fatal precondition violation raised before any deletion; the code instead
returns normally with the row silently filtered out (`to_delete` reset to
`false`), so no error is raised. -/
theorem soft_filter_counterexample :
    applyDeleteLogic [⟨"gs://b/x", "x", 5, false, true⟩] ["gs://b/x"] (fun _ => true)
      = .ok [⟨"gs://b/x", "x", 5, true, false⟩] := rfl

/-! ## Helper lemmas: `str.split("/")` -/

theorem splitSlash_length (l : List Char) :
    (splitSlash l).length = l.count '/' + 1 := by
  induction l with
  | nil => simp [splitSlash]
  | cons c cs ih =>
    by_cases h : c = '/'
    · subst h
      simp [splitSlash, List.count_cons, ih]
    · rw [List.count_cons]
      simp only [splitSlash, if_neg h]
      cases hsp : splitSlash cs with
      | nil => rw [hsp] at ih; simp at ih
      | cons p ps =>
        rw [hsp] at ih
        simp only [List.length_cons] at ih ⊢
        have hc : (cs.count '/' + if c == '/' then 1 else 0) = cs.count '/' := by
          simp [h]
        omega

theorem splitSlash_count_zero (l : List Char) (h : l.count '/' = 0) :
    splitSlash l = [l] := by
  induction l with
  | nil => rfl
  | cons c cs ih =>
    rw [List.count_cons] at h
    have hc : ¬(c = '/') := by
      intro hc; subst hc; simp at h
    have hcs : cs.count '/' = 0 := by
      by_cases hb : c == '/' <;> simp [hb] at h <;> omega
    simp [splitSlash, if_neg hc, ih hcs]

theorem splitSlash_count_one (l : List Char) (h : l.count '/' = 1) :
    ∃ a b, splitSlash l = [a, b] ∧ l = a ++ '/' :: b := by
  induction l with
  | nil => simp at h
  | cons c cs ih =>
    by_cases hc : c = '/'
    · subst hc
      have hcs : cs.count '/' = 0 := by
        rw [List.count_cons] at h; simp at h; omega
      exact ⟨[], cs, by simp [splitSlash, splitSlash_count_zero cs hcs], rfl⟩
    · have hcs : cs.count '/' = 1 := by
        rw [List.count_cons] at h
        have : (if c == '/' then 1 else 0) = 0 := by simp [hc]
        omega
      obtain ⟨a, b, hsp, heq⟩ := ih hcs
      refine ⟨c :: a, b, ?_, by rw [heq]; rfl⟩
      simp [splitSlash, if_neg hc, hsp]

/-- C10: `split_workspace_names` maps each `"namespace/name"` identifier with
exactly one `'/'` to its `{workspace_namespace, workspace_name}` pair, one
output per input in order (re-joining each output pair with `'/'` recovers
the input list exactly); and if any identifier has zero or several `'/'`
characters the tuple unpacking of `x.split("/")` raises (`.error`) instead of
truncating or skipping the malformed identifier. -/
theorem split_workspace_names_spec (xs : List (List Char)) :
    ((∀ x ∈ xs, x.count '/' = 1) →
      ∃ ys, splitWorkspaceNames xs = .ok ys
        ∧ ys.map (fun p => p.1 ++ '/' :: p.2) = xs)
    ∧ ((∃ x ∈ xs, x.count '/' ≠ 1) → splitWorkspaceNames xs = .error ()) := by
  induction xs with
  | nil =>
    refine ⟨fun _ => ⟨[], rfl, rfl⟩, ?_⟩
    rintro ⟨x, hx, -⟩
    simp at hx
  | cons x rest ih =>
    constructor
    · intro hall
      obtain ⟨a, b, hsp, heq⟩ := splitSlash_count_one x (hall x (by simp))
      obtain ⟨ys, hok, hmap⟩ := ih.1 (fun y hy => hall y (by simp [hy]))
      refine ⟨(a, b) :: ys, ?_, by simp [hmap, heq.symm]⟩
      simp [splitWorkspaceNames, hsp, hok]
    · rintro ⟨x0, hx0mem, hx0⟩
      rcases List.mem_cons.mp hx0mem with hx0eq | hx0rest
      · subst hx0eq
        have hlen : (splitSlash x0).length ≠ 2 := by
          rw [splitSlash_length]; omega
        simp only [splitWorkspaceNames]
        rcases hsp : splitSlash x0 with - | ⟨a, - | ⟨b, - | ⟨c, tl⟩⟩⟩
        · rfl
        · rfl
        · rw [hsp] at hlen; simp at hlen
        · rfl
      · have herr := ih.2 ⟨x0, hx0rest, hx0⟩
        simp only [splitWorkspaceNames]
        rcases hsp : splitSlash x with - | ⟨a, - | ⟨b, - | ⟨c, tl⟩⟩⟩
        · rfl
        · rfl
        · rw [herr]
        · rfl

/-- Witness for C10: the well-formed identifier `"a/b"` is accepted; the
malformed identifier `"ab"` raises. -/
theorem split_workspace_names_spec_witness :
    (splitWorkspaceNames [['a', '/', 'b']]).isOk = true
    ∧ splitWorkspaceNames [['a', 'b']] = .error () := by
  constructor
  · obtain ⟨ys, hok, -⟩ :=
      (split_workspace_names_spec [['a', '/', 'b']]).1 (by decide)
    rw [hok]; rfl
  · exact (split_workspace_names_spec [['a', 'b']]).2 ⟨['a', 'b'], by simp, by decide⟩

/-! ## Helper lemmas: the retry loop -/

theorem maybeRetryGo_calls_bounds (b : Nat → Except FcError R) :
    ∀ fuel n, n + 1 ≤ (maybeRetryGo b n fuel).calls
      ∧ (maybeRetryGo b n fuel).calls ≤ n + fuel + 1 := by
  intro fuel
  induction fuel with
  | zero =>
    intro n
    cases hb : b n <;> simp [maybeRetryGo, hb]
  | succ fuel ih =>
    intro n
    cases hb : b n with
    | ok r => simp [maybeRetryGo, hb]
    | error e =>
      by_cases hr : retryableErr e = true
      · have := ih (n + 1)
        simp [maybeRetryGo, hb, hr]
        omega
      · simp [maybeRetryGo, hb, hr]

theorem maybeRetryGo_waits (b : Nat → Except FcError R) :
    ∀ fuel n, (maybeRetryGo b n fuel).waitArgs
      = List.range' (n + 1) ((maybeRetryGo b n fuel).calls - (n + 1)) := by
  intro fuel
  induction fuel with
  | zero =>
    intro n
    cases hb : b n <;> simp [maybeRetryGo, hb]
  | succ fuel ih =>
    intro n
    cases hb : b n with
    | ok r => simp [maybeRetryGo, hb]
    | error e =>
      by_cases hr : retryableErr e = true
      · have hbounds := maybeRetryGo_calls_bounds b fuel (n + 1)
        have hw := ih (n + 1)
        simp only [maybeRetryGo, hb, hr, if_pos]
        rw [hw]
        have hc : (maybeRetryGo b (n + 1) fuel).calls - (n + 1)
            = ((maybeRetryGo b (n + 1) fuel).calls - (n + 2)) + 1 := by omega
        rw [hc, List.range'_succ]
      · simp [maybeRetryGo, hb, hr]

theorem maybeRetryGo_all_retryable (b : Nat → Except FcError R) :
    ∀ fuel n, (∀ i, n ≤ i → i ≤ n + fuel → isRetryableFailure (b i) = true) →
      (maybeRetryGo b n fuel).result = b (n + fuel)
        ∧ (maybeRetryGo b n fuel).calls = n + fuel + 1 := by
  intro fuel
  induction fuel with
  | zero =>
    intro n hall
    have hn := hall n (Nat.le_refl n) (by omega)
    cases hb : b n with
    | ok r => rw [hb] at hn; simp [isRetryableFailure] at hn
    | error e => simp [maybeRetryGo, hb]
  | succ fuel ih =>
    intro n hall
    have hn := hall n (Nat.le_refl n) (by omega)
    cases hb : b n with
    | ok r => rw [hb] at hn; simp [isRetryableFailure] at hn
    | error e =>
      rw [hb] at hn
      simp only [isRetryableFailure] at hn
      have hrest := ih (n + 1) (fun i h1 h2 => hall i (by omega) (by omega))
      simp only [maybeRetryGo, hb, hn, if_pos]
      refine ⟨?_, ?_⟩
      · rw [hrest.1]; congr 1; omega
      · rw [hrest.2]; omega

theorem maybeRetryGo_stops (b : Nat → Except FcError R) :
    ∀ fuel n j, n ≤ j → j ≤ n + fuel →
      (∀ i, n ≤ i → i < j → isRetryableFailure (b i) = true) →
      isRetryableFailure (b j) = false →
      (maybeRetryGo b n fuel).calls = j + 1
        ∧ (maybeRetryGo b n fuel).result = b j := by
  intro fuel
  induction fuel with
  | zero =>
    intro n j h1 h2 hpre hj
    have hnj : j = n := by omega
    subst hnj
    cases hb : b j with
    | ok r => simp [maybeRetryGo, hb]
    | error e =>
      rw [hb] at hj
      simp [maybeRetryGo, hb]
  | succ fuel ih =>
    intro n j h1 h2 hpre hj
    by_cases hnj : j = n
    · subst hnj
      cases hb : b j with
      | ok r => simp [maybeRetryGo, hb]
      | error e =>
        rw [hb] at hj
        simp only [isRetryableFailure] at hj
        simp [maybeRetryGo, hb, hj]
    · have hn := hpre n (Nat.le_refl n) (by omega)
      cases hb : b n with
      | ok r => rw [hb] at hn; simp [isRetryableFailure] at hn
      | error e =>
        rw [hb] at hn
        simp only [isRetryableFailure] at hn
        have hrest := ih (n + 1) j (by omega) (by omega)
          (fun i hi1 hi2 => hpre i (by omega) hi2) hj
        simp only [maybeRetryGo, hb, hn, if_pos]
        exact hrest

/-- C8: through `call_firecloud_api`, `maybe_retry` invokes the wrapped
function at most `max_retries + 1` times (so at most 4 with the default
`max_retries = 3` of `terra.py`); the waiter (the generalized-Fibonacci
backoff) is evaluated at `k` before the `k`-th retry, i.e. at `1, 2, …` in
order; if every attempt raises a retryable connection error the exception of
the last attempt propagates after exactly `max_retries + 1` invocations; and
a non-retryable exception (or a success) at attempt `j` ends the loop
immediately after `j + 1` invocations with that outcome. -/
theorem maybe_retry_spec (R : Type) (b : Nat → Except FcError R) (m : Nat) :
    (maybeRetry b m).calls ≤ m + 1
    ∧ (maybeRetry b m).waitArgs = List.range' 1 ((maybeRetry b m).calls - 1)
    ∧ ((∀ i, i ≤ m → isRetryableFailure (b i) = true) →
        (maybeRetry b m).result = b m ∧ (maybeRetry b m).calls = m + 1)
    ∧ (∀ j, j ≤ m → (∀ i, i < j → isRetryableFailure (b i) = true) →
        isRetryableFailure (b j) = false →
        (maybeRetry b m).calls = j + 1 ∧ (maybeRetry b m).result = b j)
    ∧ (callFirecloudApiRun b).calls ≤ callFirecloudApiMaxRetries + 1 := by
  have hfc : (callFirecloudApiRun b).calls ≤ callFirecloudApiMaxRetries + 1 := by
    simp only [callFirecloudApiRun, callFirecloudApiMaxRetries, maybeRetry]
    rw [if_neg (by omega)]
    exact (maybeRetryGo_calls_bounds b 3 0).2
  by_cases hm : m = 0
  · subst hm
    refine ⟨?_, ?_, ?_, ?_, hfc⟩ <;> simp only [maybeRetry, if_pos rfl]
    · cases hb : b 0 <;> simp
    · cases hb : b 0 <;> simp
    · intro hall
      have h0 := hall 0 (Nat.le_refl 0)
      cases hb : b 0 with
      | ok r => rw [hb] at h0; simp [isRetryableFailure] at h0
      | error e => simp [hb]
    · intro j hj hpre hjf
      have hj0 : j = 0 := by omega
      subst hj0
      cases hb : b 0 <;> simp [hb]
  · refine ⟨?_, ?_, ?_, ?_, hfc⟩ <;> simp only [maybeRetry, if_neg hm]
    · have := (maybeRetryGo_calls_bounds b m 0).2
      omega
    · exact maybeRetryGo_waits b m 0
    · intro hall
      have := maybeRetryGo_all_retryable b m 0
        (fun i h1 h2 => hall i (by omega))
      simpa using this
    · intro j hj hpre hjf
      exact maybeRetryGo_stops b m 0 j (by omega) (by omega)
        (fun i h1 h2 => hpre i h2) hjf

/-- Witness for C8 at `max_retries = 3`: a call that fails twice with
`ConnectionError` then succeeds is invoked 3 times with waiter arguments
`[1, 2]`; a call that always times out exhausts all 4 attempts and
propagates the last timeout; a call that raises a non-retryable error on the
first attempt is invoked exactly once. -/
theorem maybe_retry_spec_witness :
    ((maybeRetry (fun i => if i < 2 then .error .connectionError else .ok (42 : Nat)) 3).calls ≤ 4
      ∧ (maybeRetry (fun i => if i < 2 then .error .connectionError else .ok (42 : Nat)) 3).waitArgs
        = List.range' 1
            ((maybeRetry (fun i => if i < 2 then .error .connectionError else .ok (42 : Nat)) 3).calls - 1))
    ∧ ((maybeRetry (fun _ => (.error .connectTimeout : Except FcError Nat)) 3).result
        = .error .connectTimeout
      ∧ (maybeRetry (fun _ => (.error .connectTimeout : Except FcError Nat)) 3).calls = 4)
    ∧ ((maybeRetry (fun i => if i = 0 then .error (.otherError 500) else .ok (1 : Nat)) 3).calls = 1
      ∧ (maybeRetry (fun i => if i = 0 then .error (.otherError 500) else .ok (1 : Nat)) 3).result
        = .error (.otherError 500)) := by
  refine ⟨⟨?_, ?_⟩, ?_, ?_⟩
  · exact (maybe_retry_spec Nat (fun i => if i < 2 then .error .connectionError else .ok 42) 3).1
  · exact (maybe_retry_spec Nat (fun i => if i < 2 then .error .connectionError else .ok 42) 3).2.1
  · exact (maybe_retry_spec Nat (fun _ => .error .connectTimeout) 3).2.2.1
      (fun i _ => rfl)
  · exact (maybe_retry_spec Nat (fun i => if i = 0 then .error (.otherError 500) else .ok 1) 3).2.2.2.1
      0 (by omega) (fun i hi => absurd hi (by omega)) rfl

/-! ## Helper lemmas: soundness of the plan loop -/

theorem mem_of_mem_groupsAt {cix : Nat} {l g : List FlaggedBlob}
    (hg : g ∈ groupsAt cix l) : ∀ b ∈ g, b ∈ l := by
  simp only [groupsAt, List.mem_map] at hg
  obtain ⟨k, -, rfl⟩ := hg
  intro b hb
  exact (List.mem_filter.mp hb).1

theorem mem_of_mem_keptFlatten {cix : Nat} {l : List FlaggedBlob}
    {p : List FlaggedBlob → Bool} {b : FlaggedBlob}
    (hb : b ∈ ((groupsAt cix l).filter p).flatten) : b ∈ l := by
  rcases List.mem_flatten.mp hb with ⟨g, hg, hbg⟩
  exact mem_of_mem_groupsAt (List.mem_filter.mp hg).1 b hbg

theorem mkStats_to_delete_eq (cix : Nat) (g : List FlaggedBlob) :
    (mkStats cix g).to_delete = opRuleFires (mkStats cix g) := rfl

theorem mkStats_blobs_sound {cix : Nat} {g : List FlaggedBlob}
    (htd : (mkStats cix g).to_delete = true) :
    ∀ nm ∈ (mkStats cix g).blobs, ∃ fb ∈ g, fb.name = nm ∧ blobRuleFires fb = true := by
  intro nm hnm
  simp only [mkStats] at htd hnm
  simp only [htd, if_true] at hnm
  obtain ⟨fb, hfb, rfl⟩ := List.mem_map.mp hnm
  refine ⟨fb, hfb, rfl, ?_⟩
  simp only [List.all_eq_true, Bool.or_eq_true, Bool.and_eq_true] at htd
  rcases htd with ((h | h) | h) | ⟨h1, h2⟩
  · simp [blobRuleFires, h fb hfb]
  · simp [blobRuleFires, h fb hfb]
  · simp [blobRuleFires, h fb hfb]
  · simp [blobRuleFires, h1 fb hfb, h2 fb hfb]

theorem mkStats_deletable {cix : Nat} {g : List FlaggedBlob}
    (hco : ∀ fb ∈ g, coherentFlags fb)
    (htd : (mkStats cix g).to_delete = true) :
    (mkStats cix g).deletable = true := by
  simp only [mkStats] at htd ⊢
  simp only [List.all_eq_true, Bool.or_eq_true, Bool.and_eq_true] at htd ⊢
  rcases htd with ((h | h) | h) | ⟨h1, h2⟩
  · exact fun fb hfb => (hco fb hfb).1 (h fb hfb)
  · exact fun fb hfb => (hco fb hfb).2.1 (h fb hfb)
  · exact fun fb hfb => (hco fb hfb).2.2.1 (h fb hfb)
  · exact fun fb hfb => (hco fb hfb).2.2.2 (h1 fb hfb)

theorem planLoop_sound :
    ∀ (fuel : Nat) (rem : List FlaggedBlob) (cix : Nat) (op : PlanOp),
      (∀ fb ∈ rem, coherentFlags fb) → op ∈ planLoop rem cix fuel →
      op.to_delete = true →
      op.deletable = true ∧ opRuleFires op = true ∧
        ∀ nm ∈ op.blobs, ∃ fb ∈ rem, fb.name = nm ∧ blobRuleFires fb = true := by
  intro fuel
  induction fuel with
  | zero =>
    intro rem cix op _ hop
    simp [planLoop] at hop
  | succ fuel ih =>
    intro rem cix op hco hop htd
    simp only [planLoop] at hop
    rcases List.mem_append.mp hop with hst | hrec
    · obtain ⟨g, hg, rfl⟩ := List.mem_map.mp hst
      refine ⟨mkStats_deletable (fun fb hfb => hco fb (mem_of_mem_groupsAt hg fb hfb)) htd,
        by rw [← mkStats_to_delete_eq]; exact htd, ?_⟩
      intro nm hnm
      obtain ⟨fb, hfb, hname, hf⟩ := mkStats_blobs_sound htd nm hnm
      exact ⟨fb, mem_of_mem_groupsAt hg fb hfb, hname, hf⟩
    · have hco2 : ∀ fb ∈ ((groupsAt cix rem).filter fun g =>
          !((mkStats cix g).to_delete || (mkStats cix g).to_keep)).flatten,
          coherentFlags fb :=
        fun fb hfb => hco fb (mem_of_mem_keptFlatten hfb)
      obtain ⟨hd, hf, hblobs⟩ := ih _ (cix + 1) op hco2 hrec htd
      refine ⟨hd, hf, fun nm hnm => ?_⟩
      obtain ⟨fb, hfb, hn, hr⟩ := hblobs nm hnm
      exact ⟨fb, mem_of_mem_keptFlatten hfb, hn, hr⟩

theorem mem_insertBySize {op a : PlanOp} :
    ∀ {l : List PlanOp}, a ∈ insertBySize op l ↔ a = op ∨ a ∈ l := by
  intro l
  induction l with
  | nil => simp [insertBySize]
  | cons o os ih =>
    simp only [insertBySize]
    split
    · simp [List.mem_cons]
    · simp only [List.mem_cons, ih]
      tauto

theorem mem_sortBySizeDesc {a : PlanOp} {l : List PlanOp} :
    a ∈ sortBySizeDesc l ↔ a ∈ l := by
  unfold sortBySizeDesc
  induction l with
  | nil => simp
  | cons o os ih => simp [List.foldr_cons, mem_insertBySize, ih]

theorem coherent_mkFlags (urls : List String) (d l t : Int) (bl : Blob) :
    coherentFlags (mkFlags urls d l t bl) := by
  simp only [mkFlags, coherentFlags]
  refine ⟨?_, ?_, ?_, ?_⟩ <;>
    · intro h
      simp only [Bool.and_eq_true] at h
      exact h.1

theorem makePlan_sound (inv : List Blob) (urls : List String) (d l t : Int)
    (op : PlanOp) (hop : op ∈ makePlan inv urls d l t) :
    op.to_delete = true ∧ op.deletable = true ∧ opRuleFires op = true ∧
      ∀ nm ∈ op.blobs,
        inv.any (fun bl => bl.name == nm && !(decide (bl.gs_url ∈ urls))
          && blobDeletionReason d l t bl) = true := by
  simp only [makePlan] at hop
  rw [mem_sortBySizeDesc] at hop
  obtain ⟨hmem, htd⟩ := List.mem_filter.mp hop
  have hco : ∀ fb ∈ inv.map (mkFlags urls d l t), coherentFlags fb := by
    intro fb hfb
    obtain ⟨bl, -, rfl⟩ := List.mem_map.mp hfb
    exact coherent_mkFlags urls d l t bl
  obtain ⟨hd, hf, hblobs⟩ := planLoop_sound _ _ 0 op hco hmem htd
  refine ⟨htd, hd, hf, ?_⟩
  intro nm hnm
  obtain ⟨fb, hfb, hname, hfires⟩ := hblobs nm hnm
  obtain ⟨bl, hbl, rfl⟩ := List.mem_map.mp hfb
  rw [List.any_eq_true]
  refine ⟨bl, hbl, ?_⟩
  have hbname : bl.name = nm := hname
  simp only [blobRuleFires, mkFlags] at hfires
  cases hdec : decide (bl.gs_url ∈ urls) with
  | true => rw [hdec] at hfires; simp at hfires
  | false =>
    rw [hdec] at hfires
    simp only [Bool.not_false, Bool.true_and] at hfires
    rw [← hbname]
    simp only [blobDeletionReason, hdec, Bool.not_false, Bool.and_eq_true, Bool.true_and,
      beq_self_eq_true]
    simpa using hfires

/-- C2 (amended): in every operation of the plan produced by `make_plan`,
`to_delete` is true only if every blob of the path group is unreferenced
(`deletable`, i.e. `in_data_table` false) and one of the deletion rules fires
uniformly over the group — all-empty, all-large, all-pipeline-logs, or
(all-old and none force-kept).  Consequently every blob name listed in a
delete operation belongs to an inventory blob whose gs:// URL is outside the
reference set and which is itself empty, large, under `/pipelines-logs/`, or
old-and-not-force-kept.  (The original claim fails: size 0 is an additional
deletion reason, and `force_keep` only blocks the age rule.) -/
theorem plan_to_delete_sound (inv : List Blob) (urls : List String) (d l t : Int)
    (op : PlanOp) (hop : op ∈ makePlan inv urls d l t) :
    op.to_delete = true ∧ op.deletable = true ∧ opRuleFires op = true ∧
      ∀ nm ∈ op.blobs,
        inv.any (fun bl => bl.name == nm && !(decide (bl.gs_url ∈ urls))
          && blobDeletionReason d l t bl) = true :=
  makePlan_sound inv urls d l t op hop

/-- Witness for C2 at a one-blob inventory whose blob is marked for deletion
by the empty-size rule. -/
theorem plan_to_delete_sound_witness :
    ([⟨"a", 0, 5, "gs://b/a"⟩] : List Blob).any
      (fun bl => bl.name == "a" && !(decide (bl.gs_url ∈ ([] : List String)))
        && blobDeletionReason 90 1000000 5 bl) = true :=
  (plan_to_delete_sound [⟨"a", 0, 5, "gs://b/a"⟩] [] 90 1000000 5
      ⟨true, false, true, false, true, false, 0, 5, 1, 0, true, false, ["a"]⟩
      (by decide)).2.2.2 "a" (by decide)

/-- C2 counterexample: a one-blob inventory with an unreferenced, size-0 blob
updated today.  The claim allows `to_delete` only when one of `is_old`,
`is_large`, `is_pipeline_logs` holds; `make_plan` nevertheless marks the blob
for deletion (its age, large and pipeline-logs flags are all false) because of
the separate empty-size rule (`deletable_empty`, plan.py line 105 and 175). -/
theorem plan_empty_rule_counterexample :
    (makePlan [⟨"a", 0, 5, "gs://b/a"⟩] [] 90 1000000 5).map
        (fun op => (op.deletable_age, op.deletable_large, op.deletable_pipeline_logs,
          op.deletable_empty, op.to_delete, op.blobs))
      = [(false, false, false, true, true, ["a"])] := by rfl

/-- C3 (amended): a force-kept name (ending in `.log` or `/script`) appearing
among the blobs of a delete operation can only have been selected by the
empty-size, large-size, or pipeline-logs rule: `force_keep` blocks exactly
the age rule (`deletable_not_kept` participates only in the
`deletable_age & deletable_not_kept` disjunct), not deletion in general. -/
theorem force_keep_only_blocks_age (inv : List Blob) (urls : List String)
    (d l t : Int) (op : PlanOp) (hop : op ∈ makePlan inv urls d l t) :
    ∀ nm ∈ op.blobs, forceKeepName nm = true →
      inv.any (fun bl => bl.name == nm && !(decide (bl.gs_url ∈ urls)) &&
        (decide (bl.size = 0) || decide (bl.size > l) || pipelineLogsName bl.name)) = true := by
  intro nm hnm hfk
  have h := (makePlan_sound inv urls d l t op hop).2.2.2 nm hnm
  rw [List.any_eq_true] at h ⊢
  obtain ⟨bl, hbl, hconj⟩ := h
  refine ⟨bl, hbl, ?_⟩
  simp only [Bool.and_eq_true] at hconj
  obtain ⟨⟨hn, hd⟩, hreason⟩ := hconj
  have hbname : bl.name = nm := by simpa using hn
  simp only [blobDeletionReason, Bool.or_eq_true, Bool.and_eq_true] at hreason
  rcases hreason with ((h1 | h1) | h1) | ⟨h1, h2⟩
  · simp [hn, hd, h1]
  · simp [hn, hd, h1]
  · simp [hn, hd, h1]
  · rw [hbname, hfk] at h2
    simp at h2

/-- Witness for C3: the force-kept blob `"a.log"` is deleted by the
empty-size rule, and indeed the inventory certifies a non-age reason. -/
theorem force_keep_only_blocks_age_witness :
    ([⟨"a.log", 0, 0, "gs://b/a.log"⟩] : List Blob).any
      (fun bl => bl.name == "a.log" && !(decide (bl.gs_url ∈ ([] : List String))) &&
        (decide (bl.size = 0) || decide (bl.size > (1000000 : Int))
          || pipelineLogsName bl.name)) = true :=
  force_keep_only_blocks_age [⟨"a.log", 0, 0, "gs://b/a.log"⟩] [] 90 1000000 0
    ⟨true, false, true, false, false, false, 0, 0, 1, 0, true, false, ["a.log"]⟩
    (by decide) "a.log" (by decide) (by decide)

/-- C3 counterexample: `"a.log"` is a force-keep name, yet `make_plan` marks
it for deletion when it is unreferenced and has size 0 (the empty-size rule
ignores `deletable_not_kept`).  The claim requires `to_delete = false` for
every force-keep blob regardless of size, including size 0. -/
theorem force_keep_empty_counterexample :
    forceKeepName "a.log" = true
    ∧ (makePlan [⟨"a.log", 0, 0, "gs://b/a.log"⟩] [] 90 1000000 0).map (·.blobs)
      = [["a.log"]] := by decide

/-- C4: for a one-object inventory containing
`a/pipelines-logs/task/stdout.log` updated 1 day ago (hence not old for any
positive `days_considered_old`), of size 1 (hence neither empty nor large for
any positive size threshold), and unreferenced, `make_plan` classifies the
object `is_pipeline_logs = true` and marks it `to_delete = true` even though
it is neither old nor large. -/
theorem pipeline_logs_scenario (d L : Int) (hd : 1 ≤ d) (hL : 1 ≤ L) :
    (makePlan [⟨"a/pipelines-logs/task/stdout.log", 1, 999,
        "gs://bucket/a/pipelines-logs/task/stdout.log"⟩] [] d L 1000).map
      (fun op => (op.deletable_pipeline_logs, op.deletable_age, op.deletable_large,
        op.to_delete, op.blobs))
    = [(true, false, false, true, ["a/pipelines-logs/task/stdout.log"])] := by
  have hage : decide ((999 : Int) < 1000 - d) = false := by
    simp only [decide_eq_false_iff_not]
    omega
  have hlarge : decide ((1 : Int) > L) = false := by
    simp only [decide_eq_false_iff_not]
    omega
  have hfb : mkFlags [] d L 1000 ⟨"a/pipelines-logs/task/stdout.log", 1, 999,
      "gs://bucket/a/pipelines-logs/task/stdout.log"⟩
      = ⟨"a/pipelines-logs/task/stdout.log",
         ["a", "pipelines-logs", "task", "stdout.log"], 1, 999,
         "gs://bucket/a/pipelines-logs/task/stdout.log",
         true, false, false, false, false, true⟩ := by
    simp only [mkFlags, hage, hlarge]
    simp [forceKeepName, pipelineLogsName]
    decide
  simp only [makePlan, List.map_cons, List.map_nil, hfb]
  decide

/-- Witness for C4 at the spec's thresholds (`days_considered_old = 90`,
`bytes_considered_large = 1 GiB`). -/
theorem pipeline_logs_scenario_witness :
    (makePlan [⟨"a/pipelines-logs/task/stdout.log", 1, 999,
        "gs://bucket/a/pipelines-logs/task/stdout.log"⟩] [] 90 1073741824 1000).map
      (fun op => (op.deletable_pipeline_logs, op.deletable_age, op.deletable_large,
        op.to_delete, op.blobs))
    = [(true, false, false, true, ["a/pipelines-logs/task/stdout.log"])] :=
  pipeline_logs_scenario 90 1073741824 (by omega) (by omega)

/-- C7 (amended): `make_plan` is a pure function of the inventory, the
reference set, the two thresholds, and the evaluation date — re-running it on
identical explicit inputs, including the same value of
`pd.Timestamp.now().date()`, produces an identical plan. -/
theorem make_plan_deterministic (inv : List Blob) (urls : List String)
    (d l t : Int) : makePlan inv urls d l t = makePlan inv urls d l t := rfl

/-- C7 counterexample: `make_plan` reads `pd.Timestamp.now()` (plan.py line
101), so its output is not a function of the inventory, reference set and
thresholds alone.  With an identical inventory, reference set and thresholds,
running at date 100 yields an empty plan while running at date 300 deletes
the blob (it has become "old"), so the two plans are not byte-identical. -/
theorem plan_depends_on_date_counterexample :
    makePlan [⟨"a", 5, 100, "gs://b/a"⟩] [] 1 1000000 100
      ≠ makePlan [⟨"a", 5, 100, "gs://b/a"⟩] [] 1 1000000 300 := by decide

end Arret
